import Mathlib

/-!
Verification of the tic-tac-toe core in src/main.py.

The board is a list of 9 cells holding the mark X, the mark O, or E for an
empty cell (the Python strings "X", "O" and " ").  The game functions
check_winner, available_moves, make_move, minimax and best_move_for_cpu are
translated directly from the source; minimax receives an explicit fuel
argument because Lean definitions must be total, and fuel equal to the
number of empty cells is shown to be enough (the fuel-irrelevance theorem).
The Python float sentinels -inf and +inf that initialise best_score are
rendered as -2 and 2: every score that reaches a comparison lies in
[-1, 1], so the comparisons agree.
-/

set_option maxRecDepth 1000000

inductive Cell : Type
  | X
  | O
  | E
deriving DecidableEq

inductive GameResult : Type
  | X
  | O
  | D
deriving DecidableEq

inductive Mark : Type
  | X
  | O
deriving DecidableEq

/-- The cell written when a mark is placed (the Python strings coincide). -/
def Mark.toCell : Mark → Cell
  | Mark.X => Cell.X
  | Mark.O => Cell.O

/-- The Python expression: "O" if player == "X" else "X". -/
def otherMark : Mark → Mark
  | Mark.X => Mark.O
  | Mark.O => Mark.X

/-- The 8 win lines of the 3x3 board, in source order. -/
def WIN_LINES : List (Nat × Nat × Nat) :=
  [(0, 1, 2), (3, 4, 5), (6, 7, 8), (0, 3, 6), (1, 4, 7), (2, 5, 8), (0, 4, 8), (2, 4, 6)]

/-- The value check_winner returns for the winning cell board[a]. -/
def cellResult : Cell → GameResult
  | Cell.X => GameResult.X
  | Cell.O => GameResult.O
  | Cell.E => GameResult.D

/-- The loop over WIN_LINES inside check_winner: return board[a] for the
first line whose three cells are equal and not empty. -/
def winnerOfLines (board : List Cell) : List (Nat × Nat × Nat) → Option GameResult
  | [] => none
  | (a, b, c) :: rest =>
    if board.getD a Cell.E ≠ Cell.E ∧ board.getD a Cell.E = board.getD b Cell.E ∧
        board.getD b Cell.E = board.getD c Cell.E then
      some (cellResult (board.getD a Cell.E))
    else winnerOfLines board rest

/-- check_winner: the winning mark of the first matching line, D when the
board is full without a winner, none while the game continues. -/
def check_winner (board : List Cell) : Option GameResult :=
  match winnerOfLines board WIN_LINES with
  | some r => some r
  | none => if board.all (fun cell => decide (cell ≠ Cell.E)) then some GameResult.D else none

/-- The list comprehension of available_moves: indices of empty cells in
ascending order, walking the board with its enumeration index. -/
def amAux : Nat → List Cell → List Nat
  | _, [] => []
  | i, c :: rest => if c = Cell.E then i :: amAux (i + 1) rest else amAux (i + 1) rest

/-- available_moves: the indices 0..8 of the empty cells, ascending. -/
def available_moves (board : List Cell) : List Nat :=
  amAux 0 board

/-- make_move writes the mark unconditionally; the only failure Python can
raise here is an index error when idx is not below the board length, in
which case the board is untouched and no value is produced. -/
def make_move (board : List Cell) (idx : Nat) (player : Cell) : Option (List Cell) :=
  if idx < board.length then some (board.set idx player) else none

/-- The number of empty cells; it bounds the recursion depth of minimax. -/
def countEmpty (board : List Cell) : Nat :=
  board.count Cell.E

/-- The update of (best_score, best_move) for one candidate move: replace
the pair only on strict improvement for the current role. -/
def mmUpdate (maximizing : Bool) (score : Int) (m : Nat) (bestScore : Int)
    (bestMv : Option Nat) : Int × Option Nat :=
  if maximizing then
    if score > bestScore then (score, some m) else (bestScore, bestMv)
  else
    if score < bestScore then (score, some m) else (bestScore, bestMv)

/-- The early-termination test: the maximizer stops at +1, the minimizer
at -1. -/
def mmBreak (maximizing : Bool) (bestScore : Int) : Bool :=
  (maximizing && bestScore == 1) || (!maximizing && bestScore == -1)

/-- The move loop of minimax: try each move, keep the strictly best
(score, move) pair, and stop as soon as the side to move has reached its
absolute optimum (+1 maximizing, -1 minimizing). -/
def mmLoop (f : Nat → Int) (maximizing : Bool) :
    List Nat → Int → Option Nat → Int × Option Nat
  | [], bestScore, bestMv => (bestScore, bestMv)
  | m :: rest, bestScore, bestMv =>
    let p := mmUpdate maximizing (f m) m bestScore bestMv
    if mmBreak maximizing p.1 then p
    else mmLoop f maximizing rest p.1 p.2

/-- minimax with explicit fuel.  A terminal board scores +1 for X, -1 for O
and 0 for a draw; otherwise the loop searches the moves of the current
player, each child board being the board with the move written, searched
for the other player with the role flipped.  Exhausted fuel (never reached
when fuel is at least countEmpty board) returns the neutral pair. -/
def minimaxF : Nat → List Cell → Mark → Bool → Int × Option Nat
  | 0, board, _, _ =>
    (match check_winner board with
     | some GameResult.X => (1, none)
     | some GameResult.O => (-1, none)
     | some GameResult.D => (0, none)
     | none => (0, none))
  | fuel + 1, board, player, maximizing =>
    match check_winner board with
    | some GameResult.X => (1, none)
    | some GameResult.O => (-1, none)
    | some GameResult.D => (0, none)
    | none =>
      mmLoop
        (fun m => (minimaxF fuel (board.set m player.toCell) (otherMark player) (!maximizing)).1)
        maximizing (available_moves board) (if maximizing then -2 else 2) none

/-- minimax as called by the program: the recursion depth is the number of
empty cells, which suffices. -/
def minimax (board : List Cell) (player : Mark) (maximizing : Bool) : Int × Option Nat :=
  minimaxF (countEmpty board) board player maximizing

/-- best_move_for_cpu: X maximizes, O minimizes.  When minimax associates
no move (terminal board), fall back to the first available move; when none
exists either, the Python code raises, rendered here as none. -/
def best_move_for_cpu (board : List Cell) (cpu_piece : Mark) : Option Nat :=
  let maximizing := cpu_piece == Mark.X
  match (minimax board cpu_piece maximizing).2 with
  | some m => some m
  | none =>
    match available_moves board with
    | [] => none
    | m :: _ => some m

/-- The empty board returned by new_board. -/
def emptyBoard : List Cell :=
  List.replicate 9 Cell.E

/-- Self-play driver of the testable property in the spec: alternately let
best_move_for_cpu choose for the side to move, write the move, and stop
with the outcome as soon as check_winner reports one.  The step budget
makes the recursion structural; none means the budget ran out or
best_move_for_cpu failed. -/
def playFrom : Nat → List Cell → Mark → Option GameResult
  | 0, _, _ => none
  | n + 1, board, current =>
    match best_move_for_cpu board current with
    | none => none
    | some m =>
      match check_winner (board.set m current.toCell) with
      | some r => some r
      | none => playFrom n (board.set m current.toCell) (otherMark current)

/-!
Fast evaluator.  minimaxF is convenient to reason about but reduces slowly
inside the kernel, so the concrete game computations below go through an
equivalent evaluator that keeps every intermediate value in constructor
form: the board is nine separate cell arguments, the comparisons are
implemented by pattern matching, and the loop state is re-forced at every
step.  The equivalence theorems fastMM_eq, fastBest_eq and fastPlay_eq below are
the only facts ever used about it.
-/

/-- Winner of one line, by direct case analysis. -/
def fastLineW : Cell → Cell → Cell → Option GameResult
  | Cell.X, Cell.X, Cell.X => some GameResult.X
  | Cell.O, Cell.O, Cell.O => some GameResult.O
  | _, _, _ => none

/-- Draw check: D when no cell of the list is empty. -/
def fastAll : List Cell → Option GameResult
  | [] => some GameResult.D
  | Cell.E :: _ => none
  | _ :: rest => fastAll rest

/-- check_winner specialised to nine cells. -/
def fastCW (c0 c1 c2 c3 c4 c5 c6 c7 c8 : Cell) : Option GameResult :=
  match fastLineW c0 c1 c2 with
  | some r => some r
  | none => match fastLineW c3 c4 c5 with
  | some r => some r
  | none => match fastLineW c6 c7 c8 with
  | some r => some r
  | none => match fastLineW c0 c3 c6 with
  | some r => some r
  | none => match fastLineW c1 c4 c7 with
  | some r => some r
  | none => match fastLineW c2 c5 c8 with
  | some r => some r
  | none => match fastLineW c0 c4 c8 with
  | some r => some r
  | none => match fastLineW c2 c4 c6 with
  | some r => some r
  | none => fastAll [c0, c1, c2, c3, c4, c5, c6, c7, c8]

/-- One step of the available-move list: keep the index when the cell is
empty. -/
def mcons (i : Nat) : Cell → List Nat → List Nat
  | Cell.E, rest => i :: rest
  | _, rest => rest

/-- available_moves specialised to nine cells. -/
def fastAM (c0 c1 c2 c3 c4 c5 c6 c7 c8 : Cell) : List Nat :=
  mcons 0 c0 (mcons 1 c1 (mcons 2 c2 (mcons 3 c3 (mcons 4 c4 (mcons 5 c5
    (mcons 6 c6 (mcons 7 c7 (mcons 8 c8 []))))))))

/-- Strict order on Int by case analysis (avoids the instance chain). -/
def iltB : Int → Int → Bool
  | Int.ofNat a, Int.ofNat b => Nat.blt a b
  | Int.negSucc _, Int.ofNat _ => true
  | Int.ofNat _, Int.negSucc _ => false
  | Int.negSucc a, Int.negSucc b => Nat.blt b a

/-- Equality on Int by case analysis. -/
def ieqB : Int → Int → Bool
  | Int.ofNat a, Int.ofNat b => Nat.beq a b
  | Int.negSucc a, Int.negSucc b => Nat.beq a b
  | _, _ => false

/-- The move loop with every state component forced to constructor form. -/
def fastLoop (f : Nat → Int) (maximizing : Bool) :
    List Nat → Int → Option Nat → Int × Option Nat
  | [], bs, bm => (bs, bm)
  | m :: rest, bs, bm =>
    match (match f m with
           | Int.ofNat sn =>
             if maximizing then
               (if iltB bs (Int.ofNat sn) then (Int.ofNat sn, some m) else (bs, bm))
             else
               (if iltB (Int.ofNat sn) bs then (Int.ofNat sn, some m) else (bs, bm))
           | Int.negSucc sn =>
             if maximizing then
               (if iltB bs (Int.negSucc sn) then (Int.negSucc sn, some m) else (bs, bm))
             else
               (if iltB (Int.negSucc sn) bs then (Int.negSucc sn, some m) else (bs, bm)) :
           Int × Option Nat) with
    | (Int.ofNat bn, bm2) =>
      if (maximizing && ieqB (Int.ofNat bn) 1) || (!maximizing && ieqB (Int.ofNat bn) (-1))
      then (Int.ofNat bn, bm2) else fastLoop f maximizing rest (Int.ofNat bn) bm2
    | (Int.negSucc bn, bm2) =>
      if (maximizing && ieqB (Int.negSucc bn) 1) || (!maximizing && ieqB (Int.negSucc bn) (-1))
      then (Int.negSucc bn, bm2) else fastLoop f maximizing rest (Int.negSucc bn) bm2

/-- minimaxF specialised to nine cells, with player and role kept literal. -/
def fastMM : Nat → Cell → Cell → Cell → Cell → Cell → Cell → Cell → Cell → Cell →
    Mark → Bool → Int × Option Nat
  | 0, c0, c1, c2, c3, c4, c5, c6, c7, c8, _, _ =>
    (match fastCW c0 c1 c2 c3 c4 c5 c6 c7 c8 with
     | some GameResult.X => (1, none)
     | some GameResult.O => (-1, none)
     | some GameResult.D => (0, none)
     | none => (0, none))
  | fuel + 1, c0, c1, c2, c3, c4, c5, c6, c7, c8, player, maximizing =>
    match fastCW c0 c1 c2 c3 c4 c5 c6 c7 c8 with
    | some GameResult.X => (1, none)
    | some GameResult.O => (-1, none)
    | some GameResult.D => (0, none)
    | none =>
      match maximizing with
      | true =>
        fastLoop
          (fun m =>
            (match player with
             | Mark.X =>
               (match m with
                | 0 => fastMM fuel Cell.X c1 c2 c3 c4 c5 c6 c7 c8 Mark.O false
                | 1 => fastMM fuel c0 Cell.X c2 c3 c4 c5 c6 c7 c8 Mark.O false
                | 2 => fastMM fuel c0 c1 Cell.X c3 c4 c5 c6 c7 c8 Mark.O false
                | 3 => fastMM fuel c0 c1 c2 Cell.X c4 c5 c6 c7 c8 Mark.O false
                | 4 => fastMM fuel c0 c1 c2 c3 Cell.X c5 c6 c7 c8 Mark.O false
                | 5 => fastMM fuel c0 c1 c2 c3 c4 Cell.X c6 c7 c8 Mark.O false
                | 6 => fastMM fuel c0 c1 c2 c3 c4 c5 Cell.X c7 c8 Mark.O false
                | 7 => fastMM fuel c0 c1 c2 c3 c4 c5 c6 Cell.X c8 Mark.O false
                | 8 => fastMM fuel c0 c1 c2 c3 c4 c5 c6 c7 Cell.X Mark.O false
                | _ + 9 => fastMM fuel c0 c1 c2 c3 c4 c5 c6 c7 c8 Mark.O false)
             | Mark.O =>
               (match m with
                | 0 => fastMM fuel Cell.O c1 c2 c3 c4 c5 c6 c7 c8 Mark.X false
                | 1 => fastMM fuel c0 Cell.O c2 c3 c4 c5 c6 c7 c8 Mark.X false
                | 2 => fastMM fuel c0 c1 Cell.O c3 c4 c5 c6 c7 c8 Mark.X false
                | 3 => fastMM fuel c0 c1 c2 Cell.O c4 c5 c6 c7 c8 Mark.X false
                | 4 => fastMM fuel c0 c1 c2 c3 Cell.O c5 c6 c7 c8 Mark.X false
                | 5 => fastMM fuel c0 c1 c2 c3 c4 Cell.O c6 c7 c8 Mark.X false
                | 6 => fastMM fuel c0 c1 c2 c3 c4 c5 Cell.O c7 c8 Mark.X false
                | 7 => fastMM fuel c0 c1 c2 c3 c4 c5 c6 Cell.O c8 Mark.X false
                | 8 => fastMM fuel c0 c1 c2 c3 c4 c5 c6 c7 Cell.O Mark.X false
                | _ + 9 => fastMM fuel c0 c1 c2 c3 c4 c5 c6 c7 c8 Mark.X false)).1)
          true (fastAM c0 c1 c2 c3 c4 c5 c6 c7 c8) (Int.negSucc 1) none
      | false =>
        fastLoop
          (fun m =>
            (match player with
             | Mark.X =>
               (match m with
                | 0 => fastMM fuel Cell.X c1 c2 c3 c4 c5 c6 c7 c8 Mark.O true
                | 1 => fastMM fuel c0 Cell.X c2 c3 c4 c5 c6 c7 c8 Mark.O true
                | 2 => fastMM fuel c0 c1 Cell.X c3 c4 c5 c6 c7 c8 Mark.O true
                | 3 => fastMM fuel c0 c1 c2 Cell.X c4 c5 c6 c7 c8 Mark.O true
                | 4 => fastMM fuel c0 c1 c2 c3 Cell.X c5 c6 c7 c8 Mark.O true
                | 5 => fastMM fuel c0 c1 c2 c3 c4 Cell.X c6 c7 c8 Mark.O true
                | 6 => fastMM fuel c0 c1 c2 c3 c4 c5 Cell.X c7 c8 Mark.O true
                | 7 => fastMM fuel c0 c1 c2 c3 c4 c5 c6 Cell.X c8 Mark.O true
                | 8 => fastMM fuel c0 c1 c2 c3 c4 c5 c6 c7 Cell.X Mark.O true
                | _ + 9 => fastMM fuel c0 c1 c2 c3 c4 c5 c6 c7 c8 Mark.O true)
             | Mark.O =>
               (match m with
                | 0 => fastMM fuel Cell.O c1 c2 c3 c4 c5 c6 c7 c8 Mark.X true
                | 1 => fastMM fuel c0 Cell.O c2 c3 c4 c5 c6 c7 c8 Mark.X true
                | 2 => fastMM fuel c0 c1 Cell.O c3 c4 c5 c6 c7 c8 Mark.X true
                | 3 => fastMM fuel c0 c1 c2 Cell.O c4 c5 c6 c7 c8 Mark.X true
                | 4 => fastMM fuel c0 c1 c2 c3 Cell.O c5 c6 c7 c8 Mark.X true
                | 5 => fastMM fuel c0 c1 c2 c3 c4 Cell.O c6 c7 c8 Mark.X true
                | 6 => fastMM fuel c0 c1 c2 c3 c4 c5 Cell.O c7 c8 Mark.X true
                | 7 => fastMM fuel c0 c1 c2 c3 c4 c5 c6 Cell.O c8 Mark.X true
                | 8 => fastMM fuel c0 c1 c2 c3 c4 c5 c6 c7 Cell.O Mark.X true
                | _ + 9 => fastMM fuel c0 c1 c2 c3 c4 c5 c6 c7 c8 Mark.X true)).1)
          false (fastAM c0 c1 c2 c3 c4 c5 c6 c7 c8) (Int.ofNat 2) none

/-- Board update specialised to nine cells. -/
def fastSet (m : Nat) (v c0 c1 c2 c3 c4 c5 c6 c7 c8 : Cell) :
    Cell × Cell × Cell × Cell × Cell × Cell × Cell × Cell × Cell :=
  match m with
  | 0 => (v, c1, c2, c3, c4, c5, c6, c7, c8)
  | 1 => (c0, v, c2, c3, c4, c5, c6, c7, c8)
  | 2 => (c0, c1, v, c3, c4, c5, c6, c7, c8)
  | 3 => (c0, c1, c2, v, c4, c5, c6, c7, c8)
  | 4 => (c0, c1, c2, c3, v, c5, c6, c7, c8)
  | 5 => (c0, c1, c2, c3, c4, v, c6, c7, c8)
  | 6 => (c0, c1, c2, c3, c4, c5, v, c7, c8)
  | 7 => (c0, c1, c2, c3, c4, c5, c6, v, c8)
  | 8 => (c0, c1, c2, c3, c4, c5, c6, c7, v)
  | _ + 9 => (c0, c1, c2, c3, c4, c5, c6, c7, c8)

/-- best_move_for_cpu specialised to nine cells. -/
def fastBest (c0 c1 c2 c3 c4 c5 c6 c7 c8 : Cell) (cpu_piece : Mark) : Option Nat :=
  match (fastMM (countEmpty [c0, c1, c2, c3, c4, c5, c6, c7, c8]) c0 c1 c2 c3 c4 c5 c6 c7 c8
      cpu_piece (cpu_piece == Mark.X)).2 with
  | some m => some m
  | none =>
    match fastAM c0 c1 c2 c3 c4 c5 c6 c7 c8 with
    | [] => none
    | m :: _ => some m

/-- The self-play driver specialised to nine cells. -/
def fastPlay : Nat → Cell → Cell → Cell → Cell → Cell → Cell → Cell → Cell → Cell →
    Mark → Option GameResult
  | 0, _, _, _, _, _, _, _, _, _, _ => none
  | n + 1, c0, c1, c2, c3, c4, c5, c6, c7, c8, current =>
    match fastBest c0 c1 c2 c3 c4 c5 c6 c7 c8 current with
    | none => none
    | some m =>
      match fastSet m current.toCell c0 c1 c2 c3 c4 c5 c6 c7 c8 with
      | (d0, d1, d2, d3, d4, d5, d6, d7, d8) =>
        match fastCW d0 d1 d2 d3 d4 d5 d6 d7 d8 with
        | some r => some r
        | none => fastPlay n d0 d1 d2 d3 d4 d5 d6 d7 d8 (otherMark current)

/-- Modelled from the spec (§4.2, §3 Design Notes): the move loop without
the early-termination break — plain exhaustive scan with the same
strict-improvement update in ascending order. -/
def mmLoopX (f : Nat → Int) (maximizing : Bool) :
    List Nat → Int → Option Nat → Int × Option Nat
  | [], bestScore, bestMv => (bestScore, bestMv)
  | m :: rest, bestScore, bestMv =>
    let p := mmUpdate maximizing (f m) m bestScore bestMv
    mmLoopX f maximizing rest p.1 p.2

/-- Modelled from the spec: minimax with fully exhaustive sibling scan. -/
def minimaxXF : Nat → List Cell → Mark → Bool → Int × Option Nat
  | 0, board, _, _ =>
    (match check_winner board with
     | some GameResult.X => (1, none)
     | some GameResult.O => (-1, none)
     | some GameResult.D => (0, none)
     | none => (0, none))
  | fuel + 1, board, player, maximizing =>
    match check_winner board with
    | some GameResult.X => (1, none)
    | some GameResult.O => (-1, none)
    | some GameResult.D => (0, none)
    | none =>
      mmLoopX
        (fun m => (minimaxXF fuel (board.set m player.toCell) (otherMark player) (!maximizing)).1)
        maximizing (available_moves board) (if maximizing then -2 else 2) none

/-- Modelled from the spec: best_move over the fully exhaustive search. -/
def best_move_exhaustive (board : List Cell) (cpu_piece : Mark) : Option Nat :=
  let maximizing := cpu_piece == Mark.X
  match (minimaxXF (countEmpty board) board cpu_piece maximizing).2 with
  | some m => some m
  | none =>
    match available_moves board with
    | [] => none
    | m :: _ => some m

/-- The move loop with the in-place mutation of the Python source made
explicit: the board state is threaded through the loop; each iteration
writes the trial move, recurses on the mutated board, and erases the move
on the board the recursive call returned (lines 105-112 of the source). -/
def mmLoopS (F : List Cell → (Int × Option Nat) × List Cell) (player : Mark)
    (maximizing : Bool) :
    List Nat → List Cell → Int → Option Nat → (Int × Option Nat) × List Cell
  | [], board, bestScore, bestMv => ((bestScore, bestMv), board)
  | m :: rest, board, bestScore, bestMv =>
    let r := F (board.set m player.toCell)
    let board2 := r.2.set m Cell.E
    let p := mmUpdate maximizing r.1.1 m bestScore bestMv
    if mmBreak maximizing p.1 then (p, board2)
    else mmLoopS F player maximizing rest board2 p.1 p.2

/-- minimax with the mutated board threaded explicitly; the second
component is the board as the caller sees it after the call returns. -/
def minimaxSF : Nat → List Cell → Mark → Bool → (Int × Option Nat) × List Cell
  | 0, board, _, _ =>
    ((match check_winner board with
      | some GameResult.X => (1, none)
      | some GameResult.O => (-1, none)
      | some GameResult.D => (0, none)
      | none => (0, none)), board)
  | fuel + 1, board, player, maximizing =>
    match check_winner board with
    | some GameResult.X => ((1, none), board)
    | some GameResult.O => ((-1, none), board)
    | some GameResult.D => ((0, none), board)
    | none =>
      mmLoopS (fun b => minimaxSF fuel b (otherMark player) (!maximizing)) player maximizing
        (available_moves board) board (if maximizing then -2 else 2) none

/-- best_move_for_cpu with the board threaded explicitly. -/
def best_move_for_cpuS (board : List Cell) (cpu_piece : Mark) : Option Nat × List Cell :=
  let maximizing := cpu_piece == Mark.X
  let r := minimaxSF (countEmpty board) board cpu_piece maximizing
  match r.1.2 with
  | some m => (some m, r.2)
  | none =>
    match available_moves r.2 with
    | [] => (none, r.2)
    | m :: _ => (some m, r.2)

/-- The pair minimax returns on a terminal board. -/
def scoreOf : GameResult → Int × Option Nat
  | GameResult.X => (1, none)
  | GameResult.O => (-1, none)
  | GameResult.D => (0, none)

/-- A win line l all of whose three cells hold the mark c (spec wording:
the line holds three equal non-Empty marks of that side). -/
def lineAll (board : List Cell) (l : Nat × Nat × Nat) (c : Cell) : Prop :=
  board.getD l.1 Cell.E = c ∧ board.getD l.2.1 Cell.E = c ∧ board.getD l.2.2 Cell.E = c

/-- Some of the 8 win lines is fully held by the mark c. -/
def hasLine (board : List Cell) (c : Cell) : Prop :=
  ∃ l ∈ WIN_LINES, lineAll board l c

instance (board : List Cell) (l : Nat × Nat × Nat) (c : Cell) :
    Decidable (lineAll board l c) := by
  unfold lineAll
  infer_instance

instance (board : List Cell) (c : Cell) : Decidable (hasLine board c) := by
  unfold hasLine
  infer_instance

/-!  Basic bridging facts about the Bool comparisons.  -/

theorem nat_beq_decide (n m : Nat) : n.beq m = decide (n = m) := by
  rw [Bool.eq_iff_iff]
  simp [Nat.beq_eq]

theorem iltB_eq (a b : Int) : iltB a b = decide (a < b) := by
  cases a with
  | ofNat m =>
    cases b with
    | ofNat n =>
      show Nat.blt m n = decide (Int.ofNat m < Int.ofNat n)
      rw [Bool.eq_iff_iff]
      simp [Nat.blt_eq, Int.ofNat_lt]
    | negSucc n =>
      show false = decide (Int.ofNat m < Int.negSucc n)
      symm
      rw [decide_eq_false_iff_not]
      simp only [Int.negSucc_eq, Int.ofNat_eq_coe]
      omega
  | negSucc m =>
    cases b with
    | ofNat n =>
      show true = decide (Int.negSucc m < Int.ofNat n)
      symm
      rw [decide_eq_true_eq]
      simp only [Int.negSucc_eq, Int.ofNat_eq_coe]
      omega
    | negSucc n =>
      show Nat.blt n m = decide (Int.negSucc m < Int.negSucc n)
      rw [Bool.eq_iff_iff]
      rw [Nat.blt_eq]
      rw [decide_eq_true_eq]
      simp only [Int.negSucc_eq]
      omega

theorem ieqB_eq (a b : Int) : ieqB a b = decide (a = b) := by
  cases a with
  | ofNat m =>
    cases b with
    | ofNat n =>
      show Nat.beq m n = decide (Int.ofNat m = Int.ofNat n)
      rw [Bool.eq_iff_iff]
      simp [Nat.beq_eq]
    | negSucc n =>
      show false = decide (Int.ofNat m = Int.negSucc n)
      symm
      rw [decide_eq_false_iff_not]
      simp only [Int.negSucc_eq, Int.ofNat_eq_coe]
      omega
  | negSucc m =>
    cases b with
    | ofNat n =>
      show false = decide (Int.negSucc m = Int.ofNat n)
      symm
      rw [decide_eq_false_iff_not]
      simp only [Int.negSucc_eq, Int.ofNat_eq_coe]
      omega
    | negSucc n =>
      show Nat.beq m n = decide (Int.negSucc m = Int.negSucc n)
      rw [Bool.eq_iff_iff]
      simp [Nat.beq_eq]

theorem int_beq_decide (a b : Int) : (a == b) = decide (a = b) := by
  cases a <;> cases b <;> rfl

/-!  Helper facts about lists of cells.  -/

theorem lt_length_of_getD_E : ∀ (l : List Cell) (m : Nat), l.getD m Cell.X = Cell.E →
    m < l.length := by
  intro l
  induction l with
  | nil => intro m h; simp [List.getD] at h
  | cons c rest ih =>
    intro m h
    cases m with
    | zero => simp
    | succ k =>
      have := ih k (by simpa using h)
      simp
      omega

theorem set_self_of_getD : ∀ (l : List Cell) (m : Nat), l.getD m Cell.X = Cell.E →
    l.set m Cell.E = l := by
  intro l
  induction l with
  | nil => intro m _; simp
  | cons c rest ih =>
    intro m h
    cases m with
    | zero =>
      have : c = Cell.E := by simpa using h
      simp [this]
    | succ k =>
      simp [List.set, ih k (by simpa using h)]

theorem count_set_of_E : ∀ (l : List Cell) (m : Nat) (c : Cell), l.getD m Cell.X = Cell.E →
    c ≠ Cell.E → (l.set m c).count Cell.E + 1 = l.count Cell.E := by
  intro l
  induction l with
  | nil => intro m c h _; simp [List.getD] at h
  | cons d rest ih =>
    intro m c h hc
    cases m with
    | zero =>
      have hd : d = Cell.E := by simpa using h
      simp [List.set, hd, List.count_cons, hc]
    | succ k =>
      have := ih k c (by simpa using h) hc
      simp [List.set, List.count_cons]
      omega

theorem mem_amAux : ∀ (l : List Cell) (i m : Nat), m ∈ amAux i l →
    i ≤ m ∧ l.getD (m - i) Cell.X = Cell.E := by
  intro l
  induction l with
  | nil => intro i m h; simp [amAux] at h
  | cons c rest ih =>
    intro i m h
    by_cases hc : c = Cell.E
    · rw [amAux, if_pos hc] at h
      rcases List.mem_cons.mp h with h | h
      · subst h
        simp [hc]
      · have := ih (i + 1) m h
        refine ⟨by omega, ?_⟩
        have hmi : m - i = (m - (i + 1)) + 1 := by omega
        rw [hmi]
        simpa using this.2
    · rw [amAux, if_neg hc] at h
      have := ih (i + 1) m h
      refine ⟨by omega, ?_⟩
      have hmi : m - i = (m - (i + 1)) + 1 := by omega
      rw [hmi]
      simpa using this.2

theorem mem_available_moves {board : List Cell} {m : Nat} (h : m ∈ available_moves board) :
    board.getD m Cell.X = Cell.E := by
  have := mem_amAux board 0 m h
  simpa using this.2

theorem amAux_eq_nil_iff : ∀ (l : List Cell) (i : Nat), amAux i l = [] ↔ l.count Cell.E = 0 := by
  intro l
  induction l with
  | nil => intro i; simp [amAux]
  | cons c rest ih =>
    intro i
    by_cases hc : c = Cell.E
    · rw [amAux, if_pos hc]
      simp [hc, List.count_cons]
    · rw [amAux, if_neg hc]
      rw [ih (i + 1)]
      simp [List.count_cons, hc]

/-!  Basic facts about check_winner.  -/

theorem cw_none_empty {board : List Cell} (h : check_winner board = none) :
    Cell.E ∈ board := by
  unfold check_winner at h
  rcases hw : winnerOfLines board WIN_LINES with _ | r
  · rw [hw] at h
    by_cases hall : board.all (fun cell => decide (cell ≠ Cell.E)) = true
    · simp [hall] at h
      exact h
    · rw [List.all_eq_true] at hall
      push_neg at hall
      rcases hall with ⟨c, hcmem, hc⟩
      have hce : c = Cell.E := by
        by_contra hne
        exact hc (by simp [hne])
      rwa [hce] at hcmem
  · rw [hw] at h
    simp at h

theorem countEmpty_pos_of_cw_none {board : List Cell} (h : check_winner board = none) :
    0 < countEmpty board := by
  have hm := cw_none_empty h
  unfold countEmpty
  exact List.count_pos_iff.mpr hm

theorem available_moves_ne_nil_of_cw_none {board : List Cell} (h : check_winner board = none) :
    available_moves board ≠ [] := by
  intro hnil
  have := (amAux_eq_nil_iff board 0).mp hnil
  have := countEmpty_pos_of_cw_none h
  unfold countEmpty at this
  omega

theorem cw_ne_none_of_countEmpty_zero {board : List Cell} (h : countEmpty board = 0) :
    check_winner board ≠ none := by
  intro hcw
  have := countEmpty_pos_of_cw_none hcw
  omega

theorem mmBreak_true_iff (mx : Bool) (s : Int) :
    mmBreak mx s = true ↔ ((mx = true ∧ s = 1) ∨ (mx = false ∧ s = -1)) := by
  cases mx <;> simp [mmBreak, int_beq_decide]

theorem mmUpdate_fst_mem (mx : Bool) (s : Int) (m : Nat) (bs : Int) (bm : Option Nat) :
    (mmUpdate mx s m bs bm).1 = s ∨ (mmUpdate mx s m bs bm).1 = bs := by
  unfold mmUpdate
  split <;> split <;> simp

theorem mmUpdate_ge (s : Int) (m : Nat) (bs : Int) (bm : Option Nat) :
    bs ≤ (mmUpdate true s m bs bm).1 := by
  show bs ≤ (if s > bs then (s, some m) else (bs, bm)).1
  by_cases h : s > bs
  · rw [if_pos h]
    exact le_of_lt h
  · rw [if_neg h]

theorem mmUpdate_le (s : Int) (m : Nat) (bs : Int) (bm : Option Nat) :
    (mmUpdate false s m bs bm).1 ≤ bs := by
  show (if s < bs then (s, some m) else (bs, bm)).1 ≤ bs
  by_cases h : s < bs
  · rw [if_pos h]
    exact le_of_lt h
  · rw [if_neg h]

theorem mmUpdate_of_lt (s : Int) (m : Nat) (bs : Int) (bm : Option Nat) (h : bs < s) :
    mmUpdate true s m bs bm = (s, some m) := by
  unfold mmUpdate
  simp [h]

theorem mmUpdate_of_gt (s : Int) (m : Nat) (bs : Int) (bm : Option Nat) (h : s < bs) :
    mmUpdate false s m bs bm = (s, some m) := by
  unfold mmUpdate
  simp [h]

theorem mmUpdate_snd_some (mx : Bool) (s : Int) (m : Nat) (bs : Int) (k : Nat) :
    ∃ k2, (mmUpdate mx s m bs (some k)).2 = some k2 := by
  unfold mmUpdate
  split <;> split <;> simp

theorem mmLoop_congr (f g : Nat → Int) (mx : Bool) :
    ∀ (moves : List Nat) (bs : Int) (bm : Option Nat),
    (∀ m ∈ moves, f m = g m) →
    mmLoop f mx moves bs bm = mmLoop g mx moves bs bm := by
  intro moves
  induction moves with
  | nil => intro bs bm _; rfl
  | cons m rest ih =>
    intro bs bm hfg
    have hm : f m = g m := hfg m (by simp)
    simp only [mmLoop, hm]
    split
    · rfl
    · exact ih _ _ (fun x hx => hfg x (by simp [hx]))

theorem mmLoop_fst_ge (f : Nat → Int) :
    ∀ (moves : List Nat) (bs : Int) (bm : Option Nat), bs ≤ (mmLoop f true moves bs bm).1 := by
  intro moves
  induction moves with
  | nil => intro bs bm; simp [mmLoop]
  | cons m rest ih =>
    intro bs bm
    simp only [mmLoop]
    split
    · exact mmUpdate_ge _ _ _ _
    · exact le_trans (mmUpdate_ge (f m) m bs bm) (ih _ _)

theorem mmLoop_fst_le (f : Nat → Int) :
    ∀ (moves : List Nat) (bs : Int) (bm : Option Nat), (mmLoop f false moves bs bm).1 ≤ bs := by
  intro moves
  induction moves with
  | nil => intro bs bm; simp [mmLoop]
  | cons m rest ih =>
    intro bs bm
    simp only [mmLoop]
    split
    · exact mmUpdate_le _ _ _ _
    · exact le_trans (ih _ _) (mmUpdate_le (f m) m bs bm)

theorem mmLoop_fst_mem (f : Nat → Int) (mx : Bool) :
    ∀ (moves : List Nat) (bs : Int) (bm : Option Nat),
    (mmLoop f mx moves bs bm).1 = bs ∨ ∃ m ∈ moves, (mmLoop f mx moves bs bm).1 = f m := by
  intro moves
  induction moves with
  | nil => intro bs bm; simp [mmLoop]
  | cons m rest ih =>
    intro bs bm
    simp only [mmLoop]
    split
    · rcases mmUpdate_fst_mem mx (f m) m bs bm with h | h
      · right; exact ⟨m, by simp, h⟩
      · left; exact h
    · rcases ih (mmUpdate mx (f m) m bs bm).1 (mmUpdate mx (f m) m bs bm).2 with h | ⟨k, hk, hh⟩
      · rcases mmUpdate_fst_mem mx (f m) m bs bm with h2 | h2
        · right; exact ⟨m, by simp, h.trans h2⟩
        · left; exact h.trans h2
      · right; exact ⟨k, by simp [hk], hh⟩

theorem mmLoop_snd_some (f : Nat → Int) (mx : Bool) :
    ∀ (moves : List Nat) (bs : Int) (k : Nat),
    ∃ k2, (mmLoop f mx moves bs (some k)).2 = some k2 := by
  intro moves
  induction moves with
  | nil => intro bs k; exact ⟨k, rfl⟩
  | cons m rest ih =>
    intro bs k
    simp only [mmLoop]
    rcases mmUpdate_snd_some mx (f m) m bs k with ⟨k2, hk2⟩
    split
    · exact ⟨k2, hk2⟩
    · rw [hk2]
      exact ih _ _

theorem mmLoop_cons_ge_first (f : Nat → Int) (m0 : Nat) (rest : List Nat) (bs : Int)
    (bm : Option Nat) (h : bs < f m0) : f m0 ≤ (mmLoop f true (m0 :: rest) bs bm).1 := by
  simp only [mmLoop]
  rw [mmUpdate_of_lt _ _ _ _ h]
  split
  · exact le_refl _
  · exact mmLoop_fst_ge f rest (f m0) (some m0)

theorem mmLoop_cons_le_first (f : Nat → Int) (m0 : Nat) (rest : List Nat) (bs : Int)
    (bm : Option Nat) (h : f m0 < bs) : (mmLoop f false (m0 :: rest) bs bm).1 ≤ f m0 := by
  simp only [mmLoop]
  rw [mmUpdate_of_gt _ _ _ _ h]
  split
  · exact le_refl _
  · exact mmLoop_fst_le f rest (f m0) (some m0)

theorem mmLoop_cons_snd_some_max (f : Nat → Int) (m0 : Nat) (rest : List Nat) (bs : Int)
    (h : bs < f m0) : ∃ k, (mmLoop f true (m0 :: rest) bs none).2 = some k := by
  simp only [mmLoop]
  rw [mmUpdate_of_lt _ _ _ _ h]
  split
  · exact ⟨m0, rfl⟩
  · exact mmLoop_snd_some f true rest (f m0) m0

theorem mmLoop_cons_snd_some_min (f : Nat → Int) (m0 : Nat) (rest : List Nat) (bs : Int)
    (h : f m0 < bs) : ∃ k, (mmLoop f false (m0 :: rest) bs none).2 = some k := by
  simp only [mmLoop]
  rw [mmUpdate_of_gt _ _ _ _ h]
  split
  · exact ⟨m0, rfl⟩
  · exact mmLoop_snd_some f false rest (f m0) m0

theorem minimaxF_fst_range : ∀ (fuel : Nat) (board : List Cell) (p : Mark) (mx : Bool),
    -1 ≤ (minimaxF fuel board p mx).1 ∧ (minimaxF fuel board p mx).1 ≤ 1 := by
  intro fuel
  induction fuel with
  | zero =>
    intro board p mx
    simp only [minimaxF]
    rcases check_winner board with _ | r
    · simp
    · rcases r <;> simp
  | succ fuel ih =>
    intro board p mx
    simp only [minimaxF]
    rcases hcw : check_winner board with _ | r
    case none =>
      rcases hmv : available_moves board with _ | ⟨m0, rest⟩
      · exact absurd hmv (available_moves_ne_nil_of_cw_none hcw)
      · cases mx with
        | false =>
          simp only [Bool.false_eq_true, if_false, Bool.not_false]
          constructor
          · rcases mmLoop_fst_mem
              (fun m => (minimaxF fuel (board.set m p.toCell) (otherMark p) true).1)
              false (m0 :: rest) 2 none with h | ⟨k, _, hk⟩
            · rw [h]; omega
            · rw [hk]; exact (ih _ _ _).1
          · have hb : (fun m => (minimaxF fuel (board.set m p.toCell) (otherMark p) true).1) m0 < 2 := by
              have := (ih (board.set m0 p.toCell) (otherMark p) true).2
              simp only []
              omega
            have := mmLoop_cons_le_first
              (fun m => (minimaxF fuel (board.set m p.toCell) (otherMark p) true).1)
              m0 rest 2 none hb
            have h2 := (ih (board.set m0 p.toCell) (otherMark p) true).2
            simp only [] at this
            omega
        | true =>
          simp only [if_true, Bool.not_true]
          constructor
          · have hb : -2 < (fun m => (minimaxF fuel (board.set m p.toCell) (otherMark p) false).1) m0 := by
              have := (ih (board.set m0 p.toCell) (otherMark p) false).1
              simp only []
              omega
            have := mmLoop_cons_ge_first
              (fun m => (minimaxF fuel (board.set m p.toCell) (otherMark p) false).1)
              m0 rest (-2) none hb
            have h2 := (ih (board.set m0 p.toCell) (otherMark p) false).1
            simp only [] at this
            omega
          · rcases mmLoop_fst_mem
              (fun m => (minimaxF fuel (board.set m p.toCell) (otherMark p) false).1)
              true (m0 :: rest) (-2) none with h | ⟨k, _, hk⟩
            · rw [h]; omega
            · rw [hk]; exact (ih _ _ _).2
    case some => rcases r <;> simp

theorem mmLoopX_congr (f g : Nat → Int) (mx : Bool) :
    ∀ (moves : List Nat) (bs : Int) (bm : Option Nat),
    (∀ m ∈ moves, f m = g m) →
    mmLoopX f mx moves bs bm = mmLoopX g mx moves bs bm := by
  intro moves
  induction moves with
  | nil => intro bs bm _; rfl
  | cons m rest ih =>
    intro bs bm hfg
    have hm : f m = g m := hfg m (by simp)
    simp only [mmLoopX, hm]
    exact ih _ _ (fun x hx => hfg x (by simp [hx]))

theorem mmLoopX_stall_max (f : Nat → Int) :
    ∀ (moves : List Nat) (bm : Option Nat), (∀ m ∈ moves, f m ≤ 1) →
    mmLoopX f true moves 1 bm = (1, bm) := by
  intro moves
  induction moves with
  | nil => intro bm _; rfl
  | cons m rest ih =>
    intro bm hb
    have hm : ¬ (f m > 1) := by
      have := hb m (by simp)
      omega
    simp only [mmLoopX]
    rw [show mmUpdate true (f m) m 1 bm = (1, bm) by unfold mmUpdate; simp [hm]]
    exact ih _ (fun x hx => hb x (by simp [hx]))

theorem mmLoopX_stall_min (f : Nat → Int) :
    ∀ (moves : List Nat) (bm : Option Nat), (∀ m ∈ moves, -1 ≤ f m) →
    mmLoopX f false moves (-1) bm = (-1, bm) := by
  intro moves
  induction moves with
  | nil => intro bm _; rfl
  | cons m rest ih =>
    intro bm hb
    have hm : ¬ (f m < -1) := by
      have := hb m (by simp)
      omega
    simp only [mmLoopX]
    rw [show mmUpdate false (f m) m (-1) bm = (-1, bm) by unfold mmUpdate; simp [hm]]
    exact ih _ (fun x hx => hb x (by simp [hx]))

theorem mmLoop_eq_mmLoopX (f : Nat → Int) (mx : Bool) :
    ∀ (moves : List Nat) (bs : Int) (bm : Option Nat),
    (∀ m ∈ moves, -1 ≤ f m ∧ f m ≤ 1) →
    mmLoop f mx moves bs bm = mmLoopX f mx moves bs bm := by
  intro moves
  induction moves with
  | nil => intro bs bm _; rfl
  | cons m rest ih =>
    intro bs bm hb
    simp only [mmLoop, mmLoopX]
    rcases hbr : mmBreak mx (mmUpdate mx (f m) m bs bm).1 with _ | _
    · rw [if_neg (by simp [hbr])]
      exact ih _ _ (fun x hx => hb x (by simp [hx]))
    · rw [if_pos (by simp [hbr])]
      rcases (mmBreak_true_iff mx (mmUpdate mx (f m) m bs bm).1).mp hbr with ⟨hmx, h1⟩ | ⟨hmx, h1⟩
      · subst hmx
        rw [h1, mmLoopX_stall_max f rest (mmUpdate true (f m) m bs bm).2
          (fun x hx => (hb x (by simp [hx])).2)]
        rw [← h1]
      · subst hmx
        rw [h1, mmLoopX_stall_min f rest (mmUpdate false (f m) m bs bm).2
          (fun x hx => (hb x (by simp [hx])).1)]
        rw [← h1]

theorem minimaxF_eq_minimaxXF : ∀ (fuel : Nat) (board : List Cell) (p : Mark) (mx : Bool),
    minimaxF fuel board p mx = minimaxXF fuel board p mx := by
  intro fuel
  induction fuel with
  | zero => intro board p mx; rfl
  | succ fuel ih =>
    intro board p mx
    simp only [minimaxF, minimaxXF]
    rcases hcw : check_winner board with _ | r
    case none =>
      rw [mmLoop_eq_mmLoopX _ _ _ _ _
        (fun m _ => minimaxF_fst_range fuel (board.set m p.toCell) (otherMark p) (!mx))]
      exact mmLoopX_congr _ _ _ _ _ _ (fun m _ => by rw [ih])
    case some => rcases r <;> rfl

theorem minimaxF_terminal {fuel : Nat} {board : List Cell} {p : Mark} {mx : Bool}
    {r : GameResult} (h : check_winner board = some r) :
    minimaxF fuel board p mx = scoreOf r := by
  rcases r <;> cases fuel <;> simp [minimaxF, scoreOf, h]

theorem minimaxF_fuel_irrel : ∀ (fuel fuel2 : Nat) (board : List Cell) (p : Mark) (mx : Bool),
    countEmpty board ≤ fuel → countEmpty board ≤ fuel2 →
    minimaxF fuel board p mx = minimaxF fuel2 board p mx := by
  intro fuel
  induction fuel with
  | zero =>
    intro fuel2 board p mx h1 _
    have h0 : countEmpty board = 0 := by omega
    rcases hcw : check_winner board with _ | r
    · exact absurd hcw (cw_ne_none_of_countEmpty_zero h0)
    · rw [minimaxF_terminal hcw, minimaxF_terminal hcw]
  | succ fuel ih =>
    intro fuel2 board p mx h1 h2
    rcases hcw : check_winner board with _ | r
    case some => rw [minimaxF_terminal hcw, minimaxF_terminal hcw]
    case none =>
      have hpos : 0 < countEmpty board := countEmpty_pos_of_cw_none hcw
      obtain ⟨f2, rfl⟩ : ∃ f2, fuel2 = f2 + 1 := ⟨fuel2 - 1, by omega⟩
      simp only [minimaxF]
      rw [hcw]
      apply mmLoop_congr
      intro m hm
      have hE : board.getD m Cell.X = Cell.E := mem_available_moves hm
      have hcount : countEmpty (board.set m p.toCell) + 1 = countEmpty board := by
        unfold countEmpty
        exact count_set_of_E board m p.toCell hE (by cases p <;> simp [Mark.toCell])
      rw [ih f2 (board.set m p.toCell) (otherMark p) (!mx) (by omega) (by omega)]

theorem mmLoopS_spec (F : List Cell → (Int × Option Nat) × List Cell)
    (G : List Cell → Int × Option Nat) (player : Mark) (mx : Bool)
    (hF : ∀ b, (F b).2 = b) (hFG : ∀ b, (F b).1 = G b) :
    ∀ (moves : List Nat) (board : List Cell) (bs : Int) (bm : Option Nat),
    (∀ m ∈ moves, board.getD m Cell.X = Cell.E) →
    mmLoopS F player mx moves board bs bm =
      (mmLoop (fun m => (G (board.set m player.toCell)).1) mx moves bs bm, board) := by
  intro moves
  induction moves with
  | nil => intro board bs bm _; rfl
  | cons m rest ih =>
    intro board bs bm hmv
    simp only [mmLoopS, mmLoop]
    rw [hF, hFG]
    have hb2 : (board.set m player.toCell).set m Cell.E = board := by
      rw [List.set_set]
      exact set_self_of_getD board m (hmv m (by simp))
    rw [hb2]
    split
    · rfl
    · exact ih board _ _ (fun x hx => hmv x (by simp [hx]))

theorem minimaxSF_spec : ∀ (fuel : Nat) (board : List Cell) (p : Mark) (mx : Bool),
    minimaxSF fuel board p mx = (minimaxF fuel board p mx, board) := by
  intro fuel
  induction fuel with
  | zero => intro board p mx; rfl
  | succ fuel ih =>
    intro board p mx
    simp only [minimaxSF, minimaxF]
    rcases hcw : check_winner board with _ | r
    case none =>
      rw [mmLoopS_spec (fun b => minimaxSF fuel b (otherMark p) (!mx))
        (fun b => minimaxF fuel b (otherMark p) (!mx)) p mx
        (fun b => by show (minimaxSF fuel b (otherMark p) (!mx)).2 = b; rw [ih])
        (fun b => by
          show (minimaxSF fuel b (otherMark p) (!mx)).1 = minimaxF fuel b (otherMark p) (!mx)
          rw [ih])
        (available_moves board) board _ _
        (fun m hm => mem_available_moves hm)]
    case some => rcases r <;> rfl

theorem fastLineW_eq (a b c : Cell) :
    fastLineW a b c =
      (if a ≠ Cell.E ∧ a = b ∧ b = c then some (cellResult a) else none) := by
  cases a <;> cases b <;> cases c <;> rfl

theorem winnerOfLines_cons (board : List Cell) (a b c : Nat) (rest : List (Nat × Nat × Nat)) :
    winnerOfLines board ((a, b, c) :: rest) =
      (match fastLineW (board.getD a Cell.E) (board.getD b Cell.E) (board.getD c Cell.E) with
       | some r => some r
       | none => winnerOfLines board rest) := by
  rw [fastLineW_eq]
  by_cases h : board.getD a Cell.E ≠ Cell.E ∧ board.getD a Cell.E = board.getD b Cell.E ∧
      board.getD b Cell.E = board.getD c Cell.E
  · rw [winnerOfLines, if_pos h, if_pos h]
  · rw [winnerOfLines, if_neg h, if_neg h]

theorem fastAll_eq : ∀ l : List Cell,
    fastAll l =
      (if l.all (fun cell => decide (cell ≠ Cell.E)) then some GameResult.D else none) := by
  intro l
  induction l with
  | nil => rfl
  | cons c rest ih => cases c <;> simp [fastAll, ih]

theorem fastCW_eq (c0 c1 c2 c3 c4 c5 c6 c7 c8 : Cell) :
    fastCW c0 c1 c2 c3 c4 c5 c6 c7 c8 = check_winner [c0, c1, c2, c3, c4, c5, c6, c7, c8] := by
  unfold check_winner
  rw [show WIN_LINES =
    [(0, 1, 2), (3, 4, 5), (6, 7, 8), (0, 3, 6), (1, 4, 7), (2, 5, 8), (0, 4, 8), (2, 4, 6)]
    from rfl]
  rw [winnerOfLines_cons, winnerOfLines_cons, winnerOfLines_cons, winnerOfLines_cons,
    winnerOfLines_cons, winnerOfLines_cons, winnerOfLines_cons, winnerOfLines_cons]
  rw [show ([c0, c1, c2, c3, c4, c5, c6, c7, c8].getD 0 Cell.E) = c0 from rfl]
  rw [show ([c0, c1, c2, c3, c4, c5, c6, c7, c8].getD 1 Cell.E) = c1 from rfl]
  rw [show ([c0, c1, c2, c3, c4, c5, c6, c7, c8].getD 2 Cell.E) = c2 from rfl]
  rw [show ([c0, c1, c2, c3, c4, c5, c6, c7, c8].getD 3 Cell.E) = c3 from rfl]
  rw [show ([c0, c1, c2, c3, c4, c5, c6, c7, c8].getD 4 Cell.E) = c4 from rfl]
  rw [show ([c0, c1, c2, c3, c4, c5, c6, c7, c8].getD 5 Cell.E) = c5 from rfl]
  rw [show ([c0, c1, c2, c3, c4, c5, c6, c7, c8].getD 6 Cell.E) = c6 from rfl]
  rw [show ([c0, c1, c2, c3, c4, c5, c6, c7, c8].getD 7 Cell.E) = c7 from rfl]
  rw [show ([c0, c1, c2, c3, c4, c5, c6, c7, c8].getD 8 Cell.E) = c8 from rfl]
  unfold fastCW
  rw [fastAll_eq]
  cases h0 : fastLineW c0 c1 c2 with
  | some r => simp [h0]
  | none =>
    simp only [h0]
    cases h1 : fastLineW c3 c4 c5 with
    | some r => simp [h0, h1]
    | none =>
      simp only [h1]
      cases h2 : fastLineW c6 c7 c8 with
      | some r => simp [h0, h1, h2]
      | none =>
        simp only [h2]
        cases h3 : fastLineW c0 c3 c6 with
        | some r => simp [h0, h1, h2, h3]
        | none =>
          simp only [h3]
          cases h4 : fastLineW c1 c4 c7 with
          | some r => simp [h0, h1, h2, h3, h4]
          | none =>
            simp only [h4]
            cases h5 : fastLineW c2 c5 c8 with
            | some r => simp [h0, h1, h2, h3, h4, h5]
            | none =>
              simp only [h5]
              cases h6 : fastLineW c0 c4 c8 with
              | some r => simp [h0, h1, h2, h3, h4, h5, h6]
              | none =>
                simp only [h6]
                cases h7 : fastLineW c2 c4 c6 with
                | some r => simp [h0, h1, h2, h3, h4, h5, h6, h7]
                | none =>
                  simp only [h7]
                  simp only [winnerOfLines]

theorem mcons_eq (i : Nat) (c : Cell) (rest : List Nat) :
    mcons i c rest = if c = Cell.E then i :: rest else rest := by
  cases c <;> simp [mcons]

theorem fastAM_eq (c0 c1 c2 c3 c4 c5 c6 c7 c8 : Cell) :
    fastAM c0 c1 c2 c3 c4 c5 c6 c7 c8 =
      available_moves [c0, c1, c2, c3, c4, c5, c6, c7, c8] := by
  unfold fastAM available_moves
  simp only [mcons_eq, amAux, Nat.reduceAdd]

theorem fastLoop_eq (f : Nat → Int) (mx : Bool) :
    ∀ (moves : List Nat) (bs : Int) (bm : Option Nat),
    fastLoop f mx moves bs bm = mmLoop f mx moves bs bm := by
  intro moves
  induction moves with
  | nil => intro bs bm; rfl
  | cons m rest ih =>
    intro bs bm
    have hupd : (match f m with
        | Int.ofNat sn =>
          if mx then
            (if iltB bs (Int.ofNat sn) then (Int.ofNat sn, some m) else (bs, bm))
          else
            (if iltB (Int.ofNat sn) bs then (Int.ofNat sn, some m) else (bs, bm))
        | Int.negSucc sn =>
          if mx then
            (if iltB bs (Int.negSucc sn) then (Int.negSucc sn, some m) else (bs, bm))
          else
            (if iltB (Int.negSucc sn) bs then (Int.negSucc sn, some m) else (bs, bm)) :
        Int × Option Nat) = mmUpdate mx (f m) m bs bm := by
      unfold mmUpdate
      rcases f m with sn | sn <;> cases mx <;>
        simp [iltB_eq, gt_iff_lt, decide_eq_true_eq]
    simp only [fastLoop, mmLoop, hupd]
    rcases hmu : mmUpdate mx (f m) m bs bm with ⟨b1, b2⟩
    have hbrk : ∀ s : Int,
        ((mx && ieqB s 1) || (!mx && ieqB s (-1))) = mmBreak mx s := by
      intro s
      rw [mmBreak, ieqB_eq, ieqB_eq, int_beq_decide, int_beq_decide]
    rcases b1 with bn | bn
    · show (if (mx && ieqB (Int.ofNat bn) 1) || (!mx && ieqB (Int.ofNat bn) (-1))
          then ((Int.ofNat bn : Int), b2)
          else fastLoop f mx rest (Int.ofNat bn) b2) =
        (if mmBreak mx (Int.ofNat bn, b2).1 then (Int.ofNat bn, b2)
          else mmLoop f mx rest (Int.ofNat bn, b2).1 (Int.ofNat bn, b2).2)
      rw [hbrk]
      split
      · rfl
      · exact ih _ _
    · show (if (mx && ieqB (Int.negSucc bn) 1) || (!mx && ieqB (Int.negSucc bn) (-1))
          then ((Int.negSucc bn : Int), b2)
          else fastLoop f mx rest (Int.negSucc bn) b2) =
        (if mmBreak mx (Int.negSucc bn, b2).1 then (Int.negSucc bn, b2)
          else mmLoop f mx rest (Int.negSucc bn, b2).1 (Int.negSucc bn, b2).2)
      rw [hbrk]
      split
      · rfl
      · exact ih _ _

theorem fastMM_eq : ∀ (fuel : Nat) (c0 c1 c2 c3 c4 c5 c6 c7 c8 : Cell) (p : Mark) (mx : Bool),
    fastMM fuel c0 c1 c2 c3 c4 c5 c6 c7 c8 p mx =
      minimaxF fuel [c0, c1, c2, c3, c4, c5, c6, c7, c8] p mx := by
  intro fuel
  induction fuel with
  | zero =>
    intro c0 c1 c2 c3 c4 c5 c6 c7 c8 p mx
    simp only [fastMM, minimaxF, fastCW_eq]
  | succ fuel ih =>
    intro c0 c1 c2 c3 c4 c5 c6 c7 c8 p mx
    simp only [fastMM, minimaxF, fastCW_eq]
    rcases hcw : check_winner [c0, c1, c2, c3, c4, c5, c6, c7, c8] with _ | r
    case some => rcases r <;> simp [hcw]
    case none =>
      simp only [hcw]
      cases mx <;> cases p
      all_goals
        change fastLoop _ _ _ _ _ = _
        rw [fastLoop_eq, fastAM_eq]
        apply mmLoop_congr
        intro m hm
        rcases m with _|_|_|_|_|_|_|_|_|m <;>
          exact congrArg Prod.fst (ih _ _ _ _ _ _ _ _ _ _ _)

theorem fastBest_eq (c0 c1 c2 c3 c4 c5 c6 c7 c8 : Cell) (cpu : Mark) :
    fastBest c0 c1 c2 c3 c4 c5 c6 c7 c8 cpu =
      best_move_for_cpu [c0, c1, c2, c3, c4, c5, c6, c7, c8] cpu := by
  unfold fastBest best_move_for_cpu minimax
  rw [fastMM_eq, fastAM_eq]

theorem fastPlay_eq : ∀ (n : Nat) (c0 c1 c2 c3 c4 c5 c6 c7 c8 : Cell) (cur : Mark),
    fastPlay n c0 c1 c2 c3 c4 c5 c6 c7 c8 cur =
      playFrom n [c0, c1, c2, c3, c4, c5, c6, c7, c8] cur := by
  intro n
  induction n with
  | zero => intro c0 c1 c2 c3 c4 c5 c6 c7 c8 cur; rfl
  | succ n ih =>
    intro c0 c1 c2 c3 c4 c5 c6 c7 c8 cur
    simp only [fastPlay, playFrom, fastBest_eq]
    rcases hbm : best_move_for_cpu [c0, c1, c2, c3, c4, c5, c6, c7, c8] cur with _ | m
    · rfl
    · rcases m with _|_|_|_|_|_|_|_|_|m
      · simp only [fastSet]
        rw [show ([c0, c1, c2, c3, c4, c5, c6, c7, c8].set 0 cur.toCell) = [cur.toCell, c1, c2, c3, c4, c5, c6, c7, c8] from rfl]
        rw [fastCW_eq]
        rcases hcw : check_winner [cur.toCell, c1, c2, c3, c4, c5, c6, c7, c8] with _ | r
        · simp only [hcw]
          exact ih _ _ _ _ _ _ _ _ _ _
        · simp only [hcw]
      · simp only [fastSet]
        rw [show ([c0, c1, c2, c3, c4, c5, c6, c7, c8].set 1 cur.toCell) = [c0, cur.toCell, c2, c3, c4, c5, c6, c7, c8] from rfl]
        rw [fastCW_eq]
        rcases hcw : check_winner [c0, cur.toCell, c2, c3, c4, c5, c6, c7, c8] with _ | r
        · simp only [hcw]
          exact ih _ _ _ _ _ _ _ _ _ _
        · simp only [hcw]
      · simp only [fastSet]
        rw [show ([c0, c1, c2, c3, c4, c5, c6, c7, c8].set 2 cur.toCell) = [c0, c1, cur.toCell, c3, c4, c5, c6, c7, c8] from rfl]
        rw [fastCW_eq]
        rcases hcw : check_winner [c0, c1, cur.toCell, c3, c4, c5, c6, c7, c8] with _ | r
        · simp only [hcw]
          exact ih _ _ _ _ _ _ _ _ _ _
        · simp only [hcw]
      · simp only [fastSet]
        rw [show ([c0, c1, c2, c3, c4, c5, c6, c7, c8].set 3 cur.toCell) = [c0, c1, c2, cur.toCell, c4, c5, c6, c7, c8] from rfl]
        rw [fastCW_eq]
        rcases hcw : check_winner [c0, c1, c2, cur.toCell, c4, c5, c6, c7, c8] with _ | r
        · simp only [hcw]
          exact ih _ _ _ _ _ _ _ _ _ _
        · simp only [hcw]
      · simp only [fastSet]
        rw [show ([c0, c1, c2, c3, c4, c5, c6, c7, c8].set 4 cur.toCell) = [c0, c1, c2, c3, cur.toCell, c5, c6, c7, c8] from rfl]
        rw [fastCW_eq]
        rcases hcw : check_winner [c0, c1, c2, c3, cur.toCell, c5, c6, c7, c8] with _ | r
        · simp only [hcw]
          exact ih _ _ _ _ _ _ _ _ _ _
        · simp only [hcw]
      · simp only [fastSet]
        rw [show ([c0, c1, c2, c3, c4, c5, c6, c7, c8].set 5 cur.toCell) = [c0, c1, c2, c3, c4, cur.toCell, c6, c7, c8] from rfl]
        rw [fastCW_eq]
        rcases hcw : check_winner [c0, c1, c2, c3, c4, cur.toCell, c6, c7, c8] with _ | r
        · simp only [hcw]
          exact ih _ _ _ _ _ _ _ _ _ _
        · simp only [hcw]
      · simp only [fastSet]
        rw [show ([c0, c1, c2, c3, c4, c5, c6, c7, c8].set 6 cur.toCell) = [c0, c1, c2, c3, c4, c5, cur.toCell, c7, c8] from rfl]
        rw [fastCW_eq]
        rcases hcw : check_winner [c0, c1, c2, c3, c4, c5, cur.toCell, c7, c8] with _ | r
        · simp only [hcw]
          exact ih _ _ _ _ _ _ _ _ _ _
        · simp only [hcw]
      · simp only [fastSet]
        rw [show ([c0, c1, c2, c3, c4, c5, c6, c7, c8].set 7 cur.toCell) = [c0, c1, c2, c3, c4, c5, c6, cur.toCell, c8] from rfl]
        rw [fastCW_eq]
        rcases hcw : check_winner [c0, c1, c2, c3, c4, c5, c6, cur.toCell, c8] with _ | r
        · simp only [hcw]
          exact ih _ _ _ _ _ _ _ _ _ _
        · simp only [hcw]
      · simp only [fastSet]
        rw [show ([c0, c1, c2, c3, c4, c5, c6, c7, c8].set 8 cur.toCell) = [c0, c1, c2, c3, c4, c5, c6, c7, cur.toCell] from rfl]
        rw [fastCW_eq]
        rcases hcw : check_winner [c0, c1, c2, c3, c4, c5, c6, c7, cur.toCell] with _ | r
        · simp only [hcw]
          exact ih _ _ _ _ _ _ _ _ _ _
        · simp only [hcw]
      · simp only [fastSet]
        rw [show ([c0, c1, c2, c3, c4, c5, c6, c7, c8].set (m + 9) cur.toCell) =
          [c0, c1, c2, c3, c4, c5, c6, c7, c8] from rfl]
        rw [fastCW_eq]
        rcases hcw : check_winner [c0, c1, c2, c3, c4, c5, c6, c7, c8] with _ | r
        · simp only [hcw]
          exact ih _ _ _ _ _ _ _ _ _ _
        · simp only [hcw]

theorem lineAll_of_match {board : List Cell} {a b c : Nat}
    (hm : board.getD a Cell.E ≠ Cell.E ∧ board.getD a Cell.E = board.getD b Cell.E ∧
      board.getD b Cell.E = board.getD c Cell.E) :
    lineAll board (a, b, c) (board.getD a Cell.E) := by
  exact ⟨rfl, hm.2.1.symm ▸ rfl, by rw [← hm.2.2, ← hm.2.1]⟩

theorem winnerOfLines_eq_X (board : List Cell) :
    ∀ (L : List (Nat × Nat × Nat)), (∃ l ∈ L, lineAll board l Cell.X) →
    (∀ l ∈ L, ¬ lineAll board l Cell.O) → winnerOfLines board L = some GameResult.X := by
  intro L
  induction L with
  | nil => simp
  | cons hd rest ih =>
    intro hex hno
    rcases hd with ⟨a, b, c⟩
    by_cases hm : board.getD a Cell.E ≠ Cell.E ∧ board.getD a Cell.E = board.getD b Cell.E ∧
        board.getD b Cell.E = board.getD c Cell.E
    · rw [winnerOfLines, if_pos hm]
      rcases hv : board.getD a Cell.E with _ | _ | _
      · rfl
      · exfalso
        have hoL : lineAll board (a, b, c) Cell.O := by
          have := lineAll_of_match hm
          rwa [hv] at this
        exact hno (a, b, c) (by simp) hoL
      · exact absurd hv hm.1
    · rw [winnerOfLines, if_neg hm]
      apply ih
      · rcases hex with ⟨l, hl, hall⟩
        rcases List.mem_cons.mp hl with rfl | hl2
        · exfalso
          apply hm
          rcases hall with ⟨h1, h2, h3⟩
          simp only [lineAll] at h1 h2 h3
          refine ⟨by rw [h1]; simp, by rw [h1, h2], by rw [h2, h3]⟩
        · exact ⟨l, hl2, hall⟩
      · intro l hl
        exact hno l (by simp [hl])

theorem winnerOfLines_eq_O (board : List Cell) :
    ∀ (L : List (Nat × Nat × Nat)), (∃ l ∈ L, lineAll board l Cell.O) →
    (∀ l ∈ L, ¬ lineAll board l Cell.X) → winnerOfLines board L = some GameResult.O := by
  intro L
  induction L with
  | nil => simp
  | cons hd rest ih =>
    intro hex hno
    rcases hd with ⟨a, b, c⟩
    by_cases hm : board.getD a Cell.E ≠ Cell.E ∧ board.getD a Cell.E = board.getD b Cell.E ∧
        board.getD b Cell.E = board.getD c Cell.E
    · rw [winnerOfLines, if_pos hm]
      rcases hv : board.getD a Cell.E with _ | _ | _
      · exfalso
        have hxL : lineAll board (a, b, c) Cell.X := by
          have := lineAll_of_match hm
          rwa [hv] at this
        exact hno (a, b, c) (by simp) hxL
      · rfl
      · exact absurd hv hm.1
    · rw [winnerOfLines, if_neg hm]
      apply ih
      · rcases hex with ⟨l, hl, hall⟩
        rcases List.mem_cons.mp hl with rfl | hl2
        · exfalso
          apply hm
          rcases hall with ⟨h1, h2, h3⟩
          simp only [lineAll] at h1 h2 h3
          refine ⟨by rw [h1]; simp, by rw [h1, h2], by rw [h2, h3]⟩
        · exact ⟨l, hl2, hall⟩
      · intro l hl
        exact hno l (by simp [hl])

theorem winnerOfLines_eq_none (board : List Cell) :
    ∀ (L : List (Nat × Nat × Nat)), (∀ l ∈ L, ¬ lineAll board l Cell.X) →
    (∀ l ∈ L, ¬ lineAll board l Cell.O) → winnerOfLines board L = none := by
  intro L
  induction L with
  | nil => intro _ _; rfl
  | cons hd rest ih =>
    intro hnx hno
    rcases hd with ⟨a, b, c⟩
    by_cases hm : board.getD a Cell.E ≠ Cell.E ∧ board.getD a Cell.E = board.getD b Cell.E ∧
        board.getD b Cell.E = board.getD c Cell.E
    · exfalso
      rcases hv : board.getD a Cell.E with _ | _ | _
      · have hxL : lineAll board (a, b, c) Cell.X := by
          have := lineAll_of_match hm
          rwa [hv] at this
        exact hnx (a, b, c) (by simp) hxL
      · have hoL : lineAll board (a, b, c) Cell.O := by
          have := lineAll_of_match hm
          rwa [hv] at this
        exact hno (a, b, c) (by simp) hoL
      · exact absurd hv hm.1
    · rw [winnerOfLines, if_neg hm]
      exact ih (fun l hl => hnx l (by simp [hl])) (fun l hl => hno l (by simp [hl]))

theorem all_ne_E_iff (board : List Cell) :
    (board.all (fun cell => decide (cell ≠ Cell.E)) = true) ↔ Cell.E ∉ board := by
  rw [List.all_eq_true]
  constructor
  · intro h hmem
    have := h Cell.E hmem
    simp at this
  · intro h c hc
    have hne : c ≠ Cell.E := fun he => h (he ▸ hc)
    simp [hne]

theorem not_hasLine_iff (board : List Cell) (c : Cell) :
    ¬ hasLine board c ↔ ∀ l ∈ WIN_LINES, ¬ lineAll board l c := by
  unfold hasLine
  push_neg
  rfl

theorem minimaxF_zero_snd (board : List Cell) (p : Mark) (mx : Bool) :
    (minimaxF 0 board p mx).2 = none := by
  simp only [minimaxF]
  rcases check_winner board with _ | r
  · rfl
  · rcases r <;> rfl

theorem minimaxF_snd_some {fuel : Nat} {board : List Cell} {p : Mark} {mx : Bool}
    (hcw : check_winner board = none) :
    ∃ k, (minimaxF (fuel + 1) board p mx).2 = some k := by
  simp only [minimaxF, hcw]
  rcases hmv : available_moves board with _ | ⟨m0, rest⟩
  · exact absurd hmv (available_moves_ne_nil_of_cw_none hcw)
  · cases mx with
    | true =>
      have hr := (minimaxF_fst_range fuel (board.set m0 p.toCell) (otherMark p) (!true)).1
      exact mmLoop_cons_snd_some_max _ m0 rest _
        (show (-2 : Int) < (minimaxF fuel (board.set m0 p.toCell) (otherMark p) (!true)).1
          by omega)
    | false =>
      have hr := (minimaxF_fst_range fuel (board.set m0 p.toCell) (otherMark p) (!false)).2
      exact mmLoop_cons_snd_some_min _ m0 rest _
        (show (minimaxF fuel (board.set m0 p.toCell) (otherMark p) (!false)).1 < (2 : Int)
          by omega)

theorem bestS_snd (board : List Cell) (p : Mark) :
    (best_move_for_cpuS board p).2 = board := by
  simp only [best_move_for_cpuS]
  rw [minimaxSF_spec]
  rcases (minimaxF (countEmpty board) board p (p == Mark.X)).2 with _ | m
  · rcases available_moves board with _ | ⟨m0, r0⟩ <;> rfl
  · rfl

theorem bestS_fst (board : List Cell) (p : Mark) :
    (best_move_for_cpuS board p).1 = best_move_for_cpu board p := by
  simp only [best_move_for_cpuS, best_move_for_cpu, minimax]
  rw [minimaxSF_spec]
  rcases (minimaxF (countEmpty board) board p (p == Mark.X)).2 with _ | m
  · rcases available_moves board with _ | ⟨m0, r0⟩ <;> rfl
  · rfl

theorem cw_characterization (board : List Cell)
    (hnd : ¬(hasLine board Cell.X ∧ hasLine board Cell.O)) :
    (check_winner board = some GameResult.X ↔ hasLine board Cell.X) ∧
    (check_winner board = some GameResult.O ↔ hasLine board Cell.O) ∧
    (check_winner board = some GameResult.D ↔
      ¬hasLine board Cell.X ∧ ¬hasLine board Cell.O ∧ Cell.E ∉ board) ∧
    (check_winner board = none ↔
      ¬hasLine board Cell.X ∧ ¬hasLine board Cell.O ∧ Cell.E ∈ board) := by
  by_cases hX : hasLine board Cell.X
  · have hO : ¬ hasLine board Cell.O := fun ho => hnd ⟨hX, ho⟩
    have hw : winnerOfLines board WIN_LINES = some GameResult.X :=
      winnerOfLines_eq_X board WIN_LINES hX ((not_hasLine_iff board Cell.O).mp hO)
    have hcw : check_winner board = some GameResult.X := by
      unfold check_winner
      rw [hw]
    refine ⟨⟨fun _ => hX, fun _ => hcw⟩, ?_, ?_, ?_⟩
    · constructor
      · intro h
        rw [hcw] at h
        exact absurd h (by simp)
      · intro h
        exact absurd h hO
    · constructor
      · intro h
        rw [hcw] at h
        exact absurd h (by simp)
      · intro h
        exact absurd hX h.1
    · constructor
      · intro h
        rw [hcw] at h
        exact absurd h (by simp)
      · intro h
        exact absurd hX h.1
  · by_cases hO : hasLine board Cell.O
    · have hw : winnerOfLines board WIN_LINES = some GameResult.O :=
        winnerOfLines_eq_O board WIN_LINES hO ((not_hasLine_iff board Cell.X).mp hX)
      have hcw : check_winner board = some GameResult.O := by
        unfold check_winner
        rw [hw]
      refine ⟨?_, ⟨fun _ => hO, fun _ => hcw⟩, ?_, ?_⟩
      · constructor
        · intro h
          rw [hcw] at h
          exact absurd h (by simp)
        · intro h
          exact absurd h hX
      · constructor
        · intro h
          rw [hcw] at h
          exact absurd h (by simp)
        · intro h
          exact absurd hO h.2.1
      · constructor
        · intro h
          rw [hcw] at h
          exact absurd h (by simp)
        · intro h
          exact absurd hO h.2.1
    · have hw : winnerOfLines board WIN_LINES = none :=
        winnerOfLines_eq_none board WIN_LINES ((not_hasLine_iff board Cell.X).mp hX)
          ((not_hasLine_iff board Cell.O).mp hO)
      by_cases hmem : Cell.E ∈ board
      · have hcw : check_winner board = none := by
          unfold check_winner
          rw [hw]
          rw [if_neg (fun hall => ((all_ne_E_iff board).mp hall) hmem)]
        refine ⟨?_, ?_, ?_, ⟨fun _ => ⟨hX, hO, hmem⟩, fun _ => hcw⟩⟩
        · constructor
          · intro h
            rw [hcw] at h
            exact absurd h (by simp)
          · intro h
            exact absurd h hX
        · constructor
          · intro h
            rw [hcw] at h
            exact absurd h (by simp)
          · intro h
            exact absurd h hO
        · constructor
          · intro h
            rw [hcw] at h
            exact absurd h (by simp)
          · intro h
            exact absurd hmem h.2.2
      · have hcw : check_winner board = some GameResult.D := by
          unfold check_winner
          rw [hw, if_pos ((all_ne_E_iff board).mpr hmem)]
        refine ⟨?_, ?_, ⟨fun _ => ⟨hX, hO, hmem⟩, fun _ => hcw⟩, ?_⟩
        · constructor
          · intro h
            rw [hcw] at h
            exact absurd h (by simp)
          · intro h
            exact absurd h hX
        · constructor
          · intro h
            rw [hcw] at h
            exact absurd h (by simp)
          · intro h
            exact absurd h hO
        · constructor
          · intro h
            rw [hcw] at h
            exact absurd h (by simp)
          · intro h
            exact absurd h.2.2 hmem

/-- Claim C1 (corrected): on a 9-cell board carrying completed win-lines of
at most one side, check_winner returns WinsA exactly when some win-line is
all MarkA, WinsB exactly when some is all MarkB, Draw exactly when no line
matches and no Empty cell remains, and InProgress (none) otherwise. -/
theorem check_winner_characterization (board : List Cell) (_h9 : board.length = 9)
    (hnd : ¬(hasLine board Cell.X ∧ hasLine board Cell.O)) :
    (check_winner board = some GameResult.X ↔ hasLine board Cell.X) ∧
    (check_winner board = some GameResult.O ↔ hasLine board Cell.O) ∧
    (check_winner board = some GameResult.D ↔
      ¬hasLine board Cell.X ∧ ¬hasLine board Cell.O ∧ Cell.E ∉ board) ∧
    (check_winner board = none ↔
      ¬hasLine board Cell.X ∧ ¬hasLine board Cell.O ∧ Cell.E ∈ board) :=
  cw_characterization board hnd

/-- Witness for C1 at a concrete board with one X win-line. -/
theorem check_winner_characterization_witness :
    (([Cell.X, Cell.X, Cell.X, Cell.O, Cell.O, Cell.E, Cell.E, Cell.E, Cell.E] :
        List Cell).length = 9 ∧
      ¬(hasLine [Cell.X, Cell.X, Cell.X, Cell.O, Cell.O, Cell.E, Cell.E, Cell.E, Cell.E] Cell.X ∧
        hasLine [Cell.X, Cell.X, Cell.X, Cell.O, Cell.O, Cell.E, Cell.E, Cell.E, Cell.E] Cell.O)) ∧
    ((check_winner [Cell.X, Cell.X, Cell.X, Cell.O, Cell.O, Cell.E, Cell.E, Cell.E, Cell.E] =
        some GameResult.X ↔
      hasLine [Cell.X, Cell.X, Cell.X, Cell.O, Cell.O, Cell.E, Cell.E, Cell.E, Cell.E] Cell.X) ∧
    (check_winner [Cell.X, Cell.X, Cell.X, Cell.O, Cell.O, Cell.E, Cell.E, Cell.E, Cell.E] =
        some GameResult.O ↔
      hasLine [Cell.X, Cell.X, Cell.X, Cell.O, Cell.O, Cell.E, Cell.E, Cell.E, Cell.E] Cell.O) ∧
    (check_winner [Cell.X, Cell.X, Cell.X, Cell.O, Cell.O, Cell.E, Cell.E, Cell.E, Cell.E] =
        some GameResult.D ↔
      ¬hasLine [Cell.X, Cell.X, Cell.X, Cell.O, Cell.O, Cell.E, Cell.E, Cell.E, Cell.E] Cell.X ∧
      ¬hasLine [Cell.X, Cell.X, Cell.X, Cell.O, Cell.O, Cell.E, Cell.E, Cell.E, Cell.E] Cell.O ∧
      Cell.E ∉ [Cell.X, Cell.X, Cell.X, Cell.O, Cell.O, Cell.E, Cell.E, Cell.E, Cell.E]) ∧
    (check_winner [Cell.X, Cell.X, Cell.X, Cell.O, Cell.O, Cell.E, Cell.E, Cell.E, Cell.E] =
        none ↔
      ¬hasLine [Cell.X, Cell.X, Cell.X, Cell.O, Cell.O, Cell.E, Cell.E, Cell.E, Cell.E] Cell.X ∧
      ¬hasLine [Cell.X, Cell.X, Cell.X, Cell.O, Cell.O, Cell.E, Cell.E, Cell.E, Cell.E] Cell.O ∧
      Cell.E ∈ [Cell.X, Cell.X, Cell.X, Cell.O, Cell.O, Cell.E, Cell.E, Cell.E, Cell.E])) :=
  ⟨⟨by decide, by decide⟩, check_winner_characterization _ (by decide) (by decide)⟩

/-- Counterexample to C1 as stated: on the 9-cell board with an O-line at
(0,1,2) and an X-line at (3,4,5), some win-line holds three MarkA (X)
marks, yet check_winner does not return WinsA (it returns the first
matching line, the O one). -/
theorem check_winner_first_match_cex :
    ([Cell.O, Cell.O, Cell.O, Cell.X, Cell.X, Cell.X, Cell.E, Cell.E, Cell.E] :
      List Cell).length = 9 ∧
    hasLine [Cell.O, Cell.O, Cell.O, Cell.X, Cell.X, Cell.X, Cell.E, Cell.E, Cell.E] Cell.X ∧
    check_winner [Cell.O, Cell.O, Cell.O, Cell.X, Cell.X, Cell.X, Cell.E, Cell.E, Cell.E] ≠
      some GameResult.X := by
  decide

/-- Claim C2 (confirmed): on every InProgress board, best_move with the
early-termination break returns the same index as fully exhaustive
minimax under the strict-improvement ascending-index tie-break. -/
theorem best_move_break_eq_exhaustive (board : List Cell) (cpu : Mark)
    (_h : check_winner board = none) :
    best_move_for_cpu board cpu = best_move_exhaustive board cpu := by
  simp only [best_move_for_cpu, best_move_exhaustive, minimax]
  rw [minimaxF_eq_minimaxXF]

/-- Witness for C2 at the empty board. -/
theorem best_move_break_eq_exhaustive_witness :
    check_winner emptyBoard = none ∧
    best_move_for_cpu emptyBoard Mark.X = best_move_exhaustive emptyBoard Mark.X :=
  ⟨by decide, best_move_break_eq_exhaustive emptyBoard Mark.X (by decide)⟩

/-- Claim C3 (confirmed): letting best_move play both sides from the empty
board, the game stops with an outcome within the 9-move budget (it
terminates) and that outcome is Draw. -/
theorem selfplay_draw : playFrom 9 emptyBoard Mark.X = some GameResult.D := by
  rw [show emptyBoard =
    [Cell.E, Cell.E, Cell.E, Cell.E, Cell.E, Cell.E, Cell.E, Cell.E, Cell.E] from rfl]
  rw [← fastPlay_eq]
  decide

/-- Claim C4 (corrected): best_move signals its error exactly when the
board has no Empty cell at all; on InProgress boards it returns a move
without error.  (On terminal boards that still have empty cells it falls
back to the lowest available index instead of signalling.) -/
theorem best_move_error_iff (board : List Cell) (cpu : Mark) :
    (best_move_for_cpu board cpu = none ↔ countEmpty board = 0) ∧
    (check_winner board = none → ∃ m, best_move_for_cpu board cpu = some m) := by
  constructor
  · constructor
    · intro h
      by_contra hne
      have hav : available_moves board ≠ [] := fun hnil =>
        hne ((amAux_eq_nil_iff board 0).mp hnil)
      simp only [best_move_for_cpu] at h
      rcases hbm : (minimax board cpu (cpu == Mark.X)).2 with _ | m
      · rcases hmv : available_moves board with _ | ⟨m0, r0⟩
        · exact hav hmv
        · simp [hbm, hmv] at h
      · simp [hbm] at h
    · intro h0
      have hav : available_moves board = [] := (amAux_eq_nil_iff board 0).mpr h0
      simp only [best_move_for_cpu, minimax, h0, minimaxF_zero_snd, hav]
  · intro hcw
    have hpos := countEmpty_pos_of_cw_none hcw
    obtain ⟨f2, hf2⟩ : ∃ f2, countEmpty board = f2 + 1 := ⟨countEmpty board - 1, by omega⟩
    obtain ⟨k, hk⟩ := @minimaxF_snd_some f2 board cpu (cpu == Mark.X) hcw
    refine ⟨k, ?_⟩
    simp only [best_move_for_cpu, minimax, hf2, hk]

/-- Witness for C4 at the empty board. -/
theorem best_move_error_iff_witness :
    check_winner emptyBoard = none ∧
    ∃ m, best_move_for_cpu emptyBoard Mark.X = some m :=
  ⟨by decide, (best_move_error_iff emptyBoard Mark.X).2 (by decide)⟩

/-- Counterexample to C4 as stated: the board with the X-line (0,1,2)
already complete is not InProgress, yet best_move signals no error: it
returns the lowest available index 5. -/
theorem best_move_no_error_on_won_board_cex :
    check_winner [Cell.X, Cell.X, Cell.X, Cell.O, Cell.O, Cell.E, Cell.E, Cell.E, Cell.E] ≠
      none ∧
    best_move_for_cpu [Cell.X, Cell.X, Cell.X, Cell.O, Cell.O, Cell.E, Cell.E, Cell.E, Cell.E]
      Mark.O = some 5 := by
  decide

/-- Claim C5 (corrected): make_move performs no emptiness check at all: for
any index below the board length it succeeds and overwrites the target
cell; the only failure is an index not below the length (Python raises
IndexError), and then no board is produced and the board given by the
caller is untouched. -/
theorem make_move_spec (board : List Cell) (idx : Nat) (player : Cell) :
    (make_move board idx player = none ↔ board.length ≤ idx) ∧
    (idx < board.length → make_move board idx player = some (board.set idx player)) := by
  unfold make_move
  constructor
  · by_cases h : idx < board.length
    · simp [h]
    · simp [h]
      omega
  · intro h
    simp [h]

/-- Witness for C5 at index 0 of the empty board. -/
theorem make_move_spec_witness :
    (0 : Nat) < emptyBoard.length ∧
    make_move emptyBoard 0 Cell.X = some (emptyBoard.set 0 Cell.X) :=
  ⟨by decide, (make_move_spec emptyBoard 0 Cell.X).2 (by decide)⟩

/-- Counterexample to C5 as stated: writing to the occupied cell 0 raises
no error and overwrites it. -/
theorem make_move_overwrites_cex :
    ([Cell.O, Cell.E, Cell.E, Cell.E, Cell.E, Cell.E, Cell.E, Cell.E, Cell.E] :
      List Cell).getD 0 Cell.E ≠ Cell.E ∧
    make_move [Cell.O, Cell.E, Cell.E, Cell.E, Cell.E, Cell.E, Cell.E, Cell.E, Cell.E] 0 Cell.X =
      some [Cell.X, Cell.E, Cell.E, Cell.E, Cell.E, Cell.E, Cell.E, Cell.E, Cell.E] := by
  decide

/-- Claim C6 (confirmed): with the in-place trial moves and undos of the
search threaded explicitly through the state, the board best_move hands
back to its caller is exactly the board it was given: every trial move is
reverted. -/
theorem best_move_restores_board (board : List Cell) (cpu : Mark) :
    (best_move_for_cpuS board cpu).2 = board :=
  bestS_snd board cpu

/-- Claim C7 (confirmed): with X,X,Empty on the top row and O,O,Empty on
the middle row, MarkA to move, best_move completes its line at index 2. -/
theorem best_move_wins_immediately :
    best_move_for_cpu [Cell.X, Cell.X, Cell.E, Cell.O, Cell.O, Cell.E, Cell.E, Cell.E, Cell.E]
      Mark.X = some 2 := by
  rw [← fastBest_eq]
  decide

/-- Claim C8 (confirmed): on the empty board the maximizer chooses index 0
(all optimal opening moves tie at score 0 and the ascending tie-break
keeps the first). -/
theorem best_move_empty_board : best_move_for_cpu emptyBoard Mark.X = some 0 := by
  rw [show emptyBoard =
    [Cell.E, Cell.E, Cell.E, Cell.E, Cell.E, Cell.E, Cell.E, Cell.E, Cell.E] from rfl]
  rw [← fastBest_eq]
  decide

/-- Claim C9 (confirmed): best_move is deterministic: a second call on the
board state the first call left behind (which equals the original board)
returns the same index, and that index is the one the pure function
computes from the board alone. -/
theorem best_move_deterministic (board : List Cell) (cpu : Mark) :
    (best_move_for_cpuS (best_move_for_cpuS board cpu).2 cpu).1 =
      (best_move_for_cpuS board cpu).1 ∧
    (best_move_for_cpuS board cpu).1 = best_move_for_cpu board cpu := by
  constructor
  · rw [bestS_snd]
  · exact bestS_fst board cpu

/-- Claim C10 (confirmed): the search is total with recursion depth bounded
by the number of Empty cells: any fuel of at least countEmpty board
computes the same value as the minimax of the program. -/
theorem minimax_fuel_sufficient (fuel : Nat) (board : List Cell) (p : Mark) (mx : Bool)
    (h : countEmpty board ≤ fuel) :
    minimaxF fuel board p mx = minimax board p mx :=
  minimaxF_fuel_irrel fuel (countEmpty board) board p mx h (le_refl _)

/-- Witness for C10 at a terminal board with fuel 9. -/
theorem minimax_fuel_sufficient_witness :
    countEmpty [Cell.X, Cell.X, Cell.X, Cell.O, Cell.O, Cell.E, Cell.E, Cell.E, Cell.E] ≤ 9 ∧
    minimaxF 9 [Cell.X, Cell.X, Cell.X, Cell.O, Cell.O, Cell.E, Cell.E, Cell.E, Cell.E]
        Mark.X true =
      minimax [Cell.X, Cell.X, Cell.X, Cell.O, Cell.O, Cell.E, Cell.E, Cell.E, Cell.E]
        Mark.X true :=
  ⟨by decide, minimax_fuel_sufficient 9 _ Mark.X true (by decide)⟩
